import Mathlib

/-!
Verification of the microbench micro-benchmarking library.

The development shallowly embeds the Rust sources:

* `src/utility.rs` — Kahan summation (`Statistics`), `GeometricSequence`
* `src/statistics.rs` — `Kahan`, `Model::new` (historical revision kept in the repo)
* `src/lib.rs` — `Options`, `Measurement`, `analyze`, `measure_impl`,
  `measure_drop`/`measure_setup` memory checks, `bench_impl` reporting policy

Rust `f64` values are modelled by `F64`: finite values are carried as exact
rationals and every arithmetic operation rounds its exact result to the
nearest IEEE binary64 value (ties to even, overflow to infinity, gradual
underflow via the exponent clamp at -1022).  The model ignores the sign of
zero, which none of the verified claims depend on.  `u64` arithmetic is
modelled on `ℕ` with explicit reduction modulo `2 ^ 64` where the Rust code
can wrap, and the saturating `f64`-to-`u64` cast is modelled explicitly.

Rational arithmetic inside the executable definitions goes through the
`Rat.divInt`-based helpers `qadd`, `qsub`, `qmul`, `qdiv` (the library's
`+`, `-`, `*`, `/` on `ℚ` are `@[irreducible]` and would block kernel
evaluation); the bridge lemmas `qadd_eq` etc. identify them with the
ordinary field operations.
-/

/-- Rational addition through `Rat.divInt`, kernel-reducible. -/
def qadd (a b : ℚ) : ℚ := Rat.divInt (a.num * b.den + b.num * a.den) (a.den * b.den)

/-- Rational subtraction through `Rat.divInt`, kernel-reducible. -/
def qsub (a b : ℚ) : ℚ := Rat.divInt (a.num * b.den - b.num * a.den) (a.den * b.den)

/-- Rational multiplication through `Rat.divInt`, kernel-reducible. -/
def qmul (a b : ℚ) : ℚ := Rat.divInt (a.num * b.num) (a.den * b.den)

/-- Rational division through `Rat.divInt`, kernel-reducible. -/
def qdiv (a b : ℚ) : ℚ := Rat.divInt (a.num * b.den) (b.num * a.den)

/-- IEEE binary64 values: finite (exact rational payload), signed infinity, NaN. -/
inductive F64 where
  | finite (q : ℚ)
  | inf (neg : Bool)
  | nan
deriving DecidableEq

/-- Powers of two as rationals, for any integer exponent. -/
def pow2 (e : ℤ) : ℚ :=
  if 0 ≤ e then ((2 ^ e.toNat : ℕ) : ℚ) else Rat.divInt 1 (2 ^ (-e).toNat)

/-- Floor of a rational as an integer (Euclidean division by the positive denominator). -/
def qfloor (x : ℚ) : ℤ := Int.ediv x.num x.den

/-- One half, in kernel-reducible form. -/
def half : ℚ := Rat.divInt 1 2

/-- Round a rational to the nearest integer, ties to even. -/
def rne (x : ℚ) : ℤ :=
  let n := qfloor x
  let r := qsub x (n : ℚ)
  if r < half then n else if half < r then n + 1 else if n % 2 = 0 then n else n + 1

/-- Fuelled floor base-2 logarithm; `fuel ≥ n` makes it total on the input. -/
def nlog2Aux : ℕ → ℕ → ℕ
  | 0, _ => 0
  | fuel + 1, n => if 2 ≤ n then nlog2Aux fuel (n / 2) + 1 else 0

/-- Floor of the base-2 logarithm of a natural number (0 at 0 and 1). -/
def nlog2 (n : ℕ) : ℕ := nlog2Aux n n

/-- Floor of the base-2 logarithm of `|q|` (junk value at `q = 0`). -/
def ratExp (q : ℚ) : ℤ :=
  let a := q.num.natAbs
  let b := q.den
  if b ≤ a then (nlog2 (a / b) : ℤ)
  else
    let k := nlog2 (b / a)
    if b = a * 2 ^ k then -(k : ℤ) else -(k : ℤ) - 1

/-- Clamp an exponent below at -1022, the least normal binary64 exponent. -/
def clampExp (e : ℤ) : ℤ := if e < -1022 then -1022 else e

/-- Round a positive rational to the nearest binary64 value. -/
def roundPos (q : ℚ) : F64 :=
  let e := clampExp (ratExp q)
  let m := rne (qmul q (pow2 (52 - e)))
  let r := qmul (m : ℚ) (pow2 (e - 52))
  if r < pow2 1024 then F64.finite r else F64.inf false

/-- IEEE negation. -/
def fneg : F64 → F64
  | .finite q => .finite (-q)
  | .inf s => .inf (!s)
  | .nan => .nan

/-- Round any rational to the nearest binary64 value (round to nearest, ties to even). -/
def roundQ (q : ℚ) : F64 :=
  if q < 0 then fneg (roundPos (-q)) else if q = 0 then F64.finite 0 else roundPos q

/-- IEEE addition. -/
def fadd : F64 → F64 → F64
  | .nan, _ => .nan
  | _, .nan => .nan
  | .inf s, .inf t => if s = t then .inf s else .nan
  | .inf s, .finite _ => .inf s
  | .finite _, .inf t => .inf t
  | .finite a, .finite b => roundQ (qadd a b)

/-- IEEE subtraction, as addition of the negation. -/
def fsub (x y : F64) : F64 := fadd x (fneg y)

/-- IEEE multiplication. -/
def fmul : F64 → F64 → F64
  | .nan, _ => .nan
  | _, .nan => .nan
  | .inf s, .inf t => .inf (s != t)
  | .inf s, .finite q => if q = 0 then .nan else .inf (s != decide (q < 0))
  | .finite q, .inf t => if q = 0 then .nan else .inf (t != decide (q < 0))
  | .finite a, .finite b => roundQ (qmul a b)

/-- IEEE division. -/
def fdiv : F64 → F64 → F64
  | .nan, _ => .nan
  | _, .nan => .nan
  | .inf _, .inf _ => .nan
  | .inf s, .finite q => .inf (s != decide (q < 0))
  | .finite _, .inf _ => .finite 0
  | .finite a, .finite b =>
    if b = 0 then (if a = 0 then .nan else .inf (decide (a < 0))) else roundQ (qdiv a b)

/-- IEEE strict less-than; any comparison involving NaN is false. -/
def flt : F64 → F64 → Bool
  | .nan, _ => false
  | _, .nan => false
  | .inf s, .inf t => s && !t
  | .inf s, .finite _ => s
  | .finite _, .inf t => !t
  | .finite a, .finite b => decide (a < b)

/-- Rust `x.powf(2.0)`: the correctly rounded square. -/
def fsq (x : F64) : F64 := fmul x x

/-- Rust `as f64` conversion from `u64` (round to nearest). -/
def u64f (n : ℕ) : F64 := roundQ n

/-- The binary64 value of the Rust decimal literal `n / 10 ^ k` (round to nearest). -/
def flit (n : ℤ) (d : ℕ) : F64 := roundQ (Rat.divInt n d)

/-- Rust saturating `as u64` cast from `f64` (NaN to 0, truncation, clamping). -/
def f64toU64 : F64 → ℕ
  | .nan => 0
  | .inf b => if b then 0 else 2 ^ 64 - 1
  | .finite q => if q < 0 then 0 else min (qfloor q).toNat (2 ^ 64 - 1)

/-- One step of Kahan compensated summation over a running `(sum, correction)` pair,
as in the fold body of `Statistics::kahan_sum` (src/utility.rs) and
`Kahan::kahan_sum` (src/statistics.rs). -/
def kahanStep (sc : F64 × F64) (f : F64) : F64 × F64 :=
  let y := fsub f sc.2
  let t := fadd sc.1 y
  (t, fsub (fsub t sc.1) y)

/-- `Statistics::kahan_sum` / `Kahan::kahan_sum`: fold the Kahan step from
`(0.0, 0.0)` and return the running sum. -/
def kahan_sum (l : List F64) : F64 :=
  (l.foldl kahanStep (F64.finite 0, F64.finite 0)).1

/-- `Statistics::mean` / `Kahan::kahan_mean`: the Kahan sum divided by the length
converted to `f64`. -/
def kahan_mean (l : List F64) : F64 := fdiv (kahan_sum l) (u64f l.length)

/-- `Measurement` (src/lib.rs): iteration count and elapsed nanoseconds. -/
structure Measurement where
  iterations : ℕ
  elapsed : ℕ
deriving DecidableEq

/-- `Analysis` (src/lib.rs): regression intercept, slope and goodness of fit. -/
structure Analysis where
  alpha : F64
  beta : F64
  r2 : F64
deriving DecidableEq

/-- `analyze` (src/lib.rs): ordinary least squares linear regression with Kahan
summation over the measurements, including the `as f64` conversions of the
`u64` fields, with `powf(2.0)` as the correctly rounded square. -/
def analyze (measurements : List Measurement) : Analysis :=
  let xmean := kahan_mean (measurements.map fun m => u64f m.iterations)
  let ymean := kahan_mean (measurements.map fun m => u64f m.elapsed)
  let numerator := kahan_sum (measurements.map fun m =>
    fmul (fsub (u64f m.iterations) xmean) (fsub (u64f m.elapsed) ymean))
  let denominator := kahan_sum (measurements.map fun m =>
    fsq (fsub (u64f m.iterations) xmean))
  let beta := fdiv numerator denominator
  let alpha := fsub ymean (fmul beta xmean)
  let estimator := fun x => fadd (fmul beta (u64f x)) alpha
  let numerator2 := kahan_sum (measurements.map fun m =>
    fsq (fsub (estimator m.iterations) ymean))
  let denominator2 := kahan_sum (measurements.map fun m =>
    fsq (fsub (u64f m.elapsed) ymean))
  Analysis.mk alpha beta (fdiv numerator2 denominator2)

/-- `Model` (src/statistics.rs). -/
structure Model where
  alpha : F64
  beta : F64
  r2 : F64
deriving DecidableEq

/-- `Model::new` (src/statistics.rs): OLS linear regression over `(f64, f64)`
pairs with Kahan means and sums, `powf(2.0)` as the correctly rounded square. -/
def Model.new (data : List (F64 × F64)) : Model :=
  let xmean := kahan_mean (data.map fun d => d.1)
  let ymean := kahan_mean (data.map fun d => d.2)
  let numerator := kahan_sum (data.map fun m => fmul (fsub m.1 xmean) (fsub m.2 ymean))
  let denominator := kahan_sum (data.map fun m => fsq (fsub m.1 xmean))
  let beta := fdiv numerator denominator
  let alpha := fsub ymean (fmul beta xmean)
  let estimator := fun x => fadd (fmul beta x) alpha
  let numerator2 := kahan_sum (data.map fun m => fsq (fsub (estimator m.1) ymean))
  let denominator2 := kahan_sum (data.map fun m => fsq (fsub m.2 ymean))
  Model.mk alpha beta (fdiv numerator2 denominator2)

/-- `Bytes::mebibytes` (src/lib.rs). -/
def Bytes.mebibytes (n : ℕ) : ℕ := n * 1024 * 1024

/-- Rust `std::time::Duration`: seconds and subsecond nanoseconds. -/
structure Duration where
  secs : ℕ
  nanos : ℕ
deriving DecidableEq

/-- `From<Duration> for Nanoseconds<u64>` (src/lib.rs). -/
def Duration.toNanos (d : Duration) : ℕ := d.secs * 1000000000 + d.nanos

/-- `Options` (src/lib.rs): growth factor, memory budget in bytes, time budget
in nanoseconds. -/
structure Options where
  factor : F64
  memory : ℕ
  time : ℕ
deriving DecidableEq

/-- `Default for Options` (src/lib.rs). -/
def Options.default : Options :=
  Options.mk (flit 101 100) (Bytes.mebibytes 512) (Duration.mk 5 0).toNanos

/-- The builder method `Options::factor` (src/lib.rs): consume, update, return. -/
def Options.setFactor (o : Options) (factor : F64) : Options :=
  Options.mk factor o.memory o.time

/-- The builder method `Options::memory` (src/lib.rs). -/
def Options.setMemory (o : Options) (memory : ℕ) : Options :=
  Options.mk o.factor memory o.time

/-- The builder method `Options::time` (src/lib.rs), converting the `Duration`. -/
def Options.setTime (o : Options) (time : Duration) : Options :=
  Options.mk o.factor o.memory time.toNanos

/-- The reporting decision of `bench_impl` (src/lib.rs): `true` exactly when it
prints "not enough measurements". -/
def bench_impl_insufficient (measurements : List Measurement) : Bool :=
  decide (measurements.length < 2) || flt (analyze measurements).beta (F64.finite 0)

/-- `GeometricSequence` (src/utility.rs). -/
structure GeometricSequence where
  current : F64
  factor : F64
deriving DecidableEq

/-- `GeometricSequence::new` (src/utility.rs): `start as f64`. -/
def GeometricSequence.new (start : ℕ) (factor : F64) : GeometricSequence :=
  GeometricSequence.mk (u64f start) factor

/-- The `while self.current as u64 == start` loop body of
`GeometricSequence::next` (src/utility.rs), with explicit fuel; `none` means
the loop did not exit within `fuel` iterations. -/
def geoLoop : ℕ → ℕ → GeometricSequence → Option GeometricSequence
  | 0, start, s => if f64toU64 s.current = start then none else some s
  | fuel + 1, start, s =>
    if f64toU64 s.current = start then
      geoLoop fuel start (GeometricSequence.mk (fmul s.current s.factor) s.factor)
    else some s

/-- `GeometricSequence::next` (src/utility.rs): capture `start`, spin the inner
loop, emit `start`. -/
def GeometricSequence.next (fuel : ℕ) (s : GeometricSequence) :
    Option (ℕ × GeometricSequence) :=
  let start := f64toU64 s.current
  (geoLoop fuel start s).map fun s2 => (start, s2)

/-- The values emitted by `n` successive `next` calls (truncated at a call that
does not terminate within `fuel`). -/
def geoTrace (fuel : ℕ) : ℕ → GeometricSequence → List ℕ
  | 0, _ => []
  | n + 1, s =>
    match GeometricSequence.next fuel s with
    | none => []
    | some (v, s2) => v :: geoTrace fuel n s2

/-- The sampling loop of `measure_impl` (src/lib.rs).  `clock k` is the
stopwatch reading at the guard of round `k`; `f k i` is what the measurement
strategy returns in round `k` for iteration count `i`; `rounds` and `gfuel`
are fuel for the outer loop and the generator's inner loop, with `none`
meaning the computation did not finish within the fuel. -/
def measureLoop (time : ℕ) (f : ℕ → ℕ → Option ℕ) (clock : ℕ → ℕ) :
    ℕ → ℕ → ℕ → GeometricSequence → Option (List Measurement)
  | 0, _, _, _ => none
  | rounds + 1, gfuel, k, s =>
    if clock k < time then
      match GeometricSequence.next gfuel s with
      | none => none
      | some (iterations, s2) =>
        match f k iterations with
        | some elapsed =>
          (measureLoop time f clock rounds gfuel (k + 1) s2).map
            fun rest => Measurement.mk iterations elapsed :: rest
        | none => some []
    else some []

/-- `measure_impl` (src/lib.rs): run the sampling loop from round 0 with the
sequence seeded at `GeometricSequence::new(1, options.factor)`. -/
def measure_impl (options : Options) (f : ℕ → ℕ → Option ℕ) (clock : ℕ → ℕ)
    (rounds gfuel : ℕ) : Option (List Measurement) :=
  measureLoop options.time f clock rounds gfuel 0 (GeometricSequence.new 1 options.factor)

/-- The memory-budget test in the `measure_drop` and `measure_setup` strategies
(src/lib.rs): `options.memory < Bytes(iterations * cmp::max(1, size_of as u64))`
with the `u64` product reduced modulo `2 ^ 64` (release-mode wrapping). -/
def memoryExceeded (memory sizeOf iterations : ℕ) : Bool :=
  decide (memory < iterations * max 1 sizeOf % 2 ^ 64)

/-- One round of the `measure_drop` strategy closure (src/lib.rs): the budget
test runs first, and a failing test returns `none` before any allocation;
otherwise the round allocates the output buffer of capacity `iterations` and
returns the timed elapsed value.  The first component records the bytes the
round requests from the allocator. -/
def measure_drop_round (memory sizeOf iterations elapsed : ℕ) : ℕ × Option ℕ :=
  if memoryExceeded memory sizeOf iterations then (0, none)
  else (iterations * sizeOf, some elapsed)

/-- One round of the `measure_setup` strategy closure (src/lib.rs): identical
budget test against the input type's size, run before the inputs vector is
collected. -/
def measure_setup_round (memory sizeOf iterations elapsed : ℕ) : ℕ × Option ℕ :=
  if memoryExceeded memory sizeOf iterations then (0, none)
  else (iterations * sizeOf, some elapsed)

/-- A rational that is the value of a binary64 significand-exponent pair
(53-bit signed significand, arbitrary exponent); every finite Rust `f64`
value is of this shape. -/
def IsRepr (q : ℚ) : Prop := ∃ m e : ℤ, q = (m : ℚ) * pow2 e ∧ m.natAbs < 2 ^ 53

/-- The factor is a finite representable value strictly greater than one —
what a Rust `f64` strictly above `1.0` provides. -/
def FactorOk (x : F64) : Prop := ∃ fq, x = F64.finite fq ∧ 1 < fq ∧ IsRepr fq

/-- The running `current` value is positive infinity or finite and at least 1. -/
def CurOk (x : F64) : Prop := x = F64.inf false ∨ ∃ q, x = F64.finite q ∧ 1 ≤ q

/-- The generator's `current` is positive infinity or finite and at least
`2 ^ 64`: in this region the saturating cast is pinned at `u64::MAX`, so the
Rust inner `while` loop of `next` can never exit again. -/
def BigCur (x : F64) : Prop :=
  x = F64.inf false ∨ ∃ q, x = F64.finite q ∧ pow2 64 ≤ q

/-- The Kahan update step exactly as the specification words it:
`y = v - correction; t = sum + y; correction = (t - sum) - y; sum = t`. -/
def specKahanStep (sc : F64 × F64) (v : F64) : F64 × F64 :=
  let y := fsub v sc.2
  let t := fadd sc.1 y
  let correction := fsub (fsub t sc.1) y
  (t, correction)

/-- Spec-side Kahan summation: fold the spec step from `(0.0, 0.0)` and return
the final running sum. -/
def specKahanSum (l : List F64) : F64 :=
  (l.foldl specKahanStep (F64.finite 0, F64.finite 0)).1

/-- Spec-side mean: Kahan sum divided by the count. -/
def specMean (l : List F64) : F64 := fdiv (specKahanSum l) (u64f l.length)

/-- Spec-side OLS slope over paired data: Kahan-summed `Σ(xᵢ-x̄)(yᵢ-ȳ)` over
Kahan-summed `Σ(xᵢ-x̄)²`. -/
def specBeta (xs ys : List F64) : F64 :=
  fdiv
    (specKahanSum ((xs.zip ys).map fun p =>
      fmul (fsub p.1 (specMean xs)) (fsub p.2 (specMean ys))))
    (specKahanSum (xs.map fun x => fsq (fsub x (specMean xs))))

/-- Spec-side intercept: `α = ȳ - β·x̄`. -/
def specAlpha (xs ys : List F64) : F64 :=
  fsub (specMean ys) (fmul (specBeta xs ys) (specMean xs))

/-- Spec-side goodness of fit, the explained-over-total-variance form:
`R² = Σ(ŷᵢ-ȳ)² / Σ(yᵢ-ȳ)²` with `ŷᵢ = β·xᵢ + α`. -/
def specR2 (xs ys : List F64) : F64 :=
  fdiv
    (specKahanSum (xs.map fun x =>
      fsq (fsub (fadd (fmul (specBeta xs ys) x) (specAlpha xs ys)) (specMean ys))))
    (specKahanSum (ys.map fun y => fsq (fsub y (specMean ys))))

/-- The spec-side insufficiency condition of bench reporting: fewer than two
measurements, or an estimated slope that is an actual negative value
(finite negative or negative infinity — not NaN). -/
def specInsufficient (measurements : List Measurement) : Prop :=
  measurements.length < 2 ∨
  (∃ q, (analyze measurements).beta = F64.finite q ∧ q < 0) ∨
  (analyze measurements).beta = F64.inf true

/-- Divergence of a `measure_impl` run: no amount of fuel for the outer loop
or for the generator's inner loop makes it return — the Lean rendering of an
infinite loop. -/
def measure_impl_diverges (options : Options) (f : ℕ → ℕ → Option ℕ)
    (clock : ℕ → ℕ) : Prop :=
  ∀ rounds gfuel, measure_impl options f clock rounds gfuel = none

set_option maxRecDepth 16384

theorem qadd_eq (a b : ℚ) : qadd a b = a + b := by
  rw [qadd]
  conv_rhs => rw [← Rat.num_divInt_den a, ← Rat.num_divInt_den b]
  rw [Rat.divInt_add_divInt _ _ (Int.natCast_ne_zero.mpr a.den_nz)
    (Int.natCast_ne_zero.mpr b.den_nz)]

theorem qsub_eq (a b : ℚ) : qsub a b = a - b := by
  rw [qsub]
  conv_rhs => rw [← Rat.num_divInt_den a, ← Rat.num_divInt_den b]
  rw [Rat.divInt_sub_divInt _ _ (Int.natCast_ne_zero.mpr a.den_nz)
    (Int.natCast_ne_zero.mpr b.den_nz)]

theorem qmul_eq (a b : ℚ) : qmul a b = a * b := by
  rw [qmul]
  conv_rhs => rw [← Rat.num_divInt_den a, ← Rat.num_divInt_den b]
  rw [Rat.divInt_mul_divInt']

theorem qdiv_eq (a b : ℚ) : qdiv a b = a / b := by
  rw [qdiv, Rat.div_def' a b, Int.mul_comm ((a.den : ℤ)) b.num]

theorem pow2_eq_zpow (e : ℤ) : pow2 e = (2 : ℚ) ^ e := by
  rw [pow2]
  split
  · next h =>
    push_cast
    rw [← zpow_natCast (2:ℚ) e.toNat, Int.toNat_of_nonneg h]
  · next h =>
    rw [Rat.divInt_eq_div]
    push_cast
    rw [one_div, ← zpow_natCast (2:ℚ) (-e).toNat,
      Int.toNat_of_nonneg (by omega), ← zpow_neg, neg_neg]

theorem pow2_pos (e : ℤ) : 0 < pow2 e := by
  rw [pow2_eq_zpow]; positivity

theorem pow2_add (a b : ℤ) : pow2 (a + b) = pow2 a * pow2 b := by
  rw [pow2_eq_zpow, pow2_eq_zpow, pow2_eq_zpow, zpow_add₀ (by norm_num : (2:ℚ) ≠ 0)]

theorem pow2_mono {a b : ℤ} (h : a ≤ b) : pow2 a ≤ pow2 b := by
  rw [pow2_eq_zpow, pow2_eq_zpow]
  exact zpow_le_zpow_right₀ (by norm_num) h

theorem pow2_lt_pow2 {a b : ℤ} (h : a < b) : pow2 a < pow2 b := by
  rw [pow2_eq_zpow, pow2_eq_zpow]
  exact zpow_lt_zpow_right₀ (by norm_num) h

theorem pow2_natCast (k : ℕ) : pow2 (k : ℤ) = ((2 : ℚ)) ^ k := by
  rw [pow2_eq_zpow, zpow_natCast]

theorem qfloor_eq_floor (x : ℚ) : qfloor x = ⌊x⌋ := by
  rw [qfloor, Rat.floor_def]
  rfl

theorem qfloor_le (x : ℚ) : (qfloor x : ℚ) ≤ x := by
  rw [qfloor_eq_floor]; exact Int.floor_le x

theorem lt_qfloor_add_one (x : ℚ) : x < qfloor x + 1 := by
  rw [qfloor_eq_floor]; exact_mod_cast Int.lt_floor_add_one x

theorem qfloor_intCast (n : ℤ) : qfloor (n : ℚ) = n := by
  rw [qfloor_eq_floor]; exact Int.floor_intCast n

theorem half_eq : half = 1 / 2 := by
  rw [half, Rat.divInt_eq_div]; norm_num

theorem rne_ge (x : ℚ) : x - 1 / 2 ≤ (rne x : ℚ) := by
  rw [rne]
  have h1 := qfloor_le x
  have h2 := lt_qfloor_add_one x
  simp only [qsub_eq, half_eq]
  split
  · next h => linarith
  · split
    · next h => push_cast; linarith
    · split
      · next h => linarith
      · next h => push_cast; linarith

theorem rne_le (x : ℚ) : (rne x : ℚ) ≤ x + 1 / 2 := by
  rw [rne]
  have h1 := qfloor_le x
  have h2 := lt_qfloor_add_one x
  simp only [qsub_eq, half_eq]
  split
  · next h => linarith
  · next h =>
    rw [not_lt] at h
    split
    · next h' => push_cast; linarith
    · next h' =>
      rw [not_lt] at h'
      split
      · linarith
      · push_cast; linarith

theorem rne_intCast (n : ℤ) : rne (n : ℚ) = n := by
  rw [rne]
  simp only [qfloor_intCast, qsub_eq, sub_self]
  rw [if_pos]
  rw [half_eq]
  norm_num

theorem intCast_le_rne {k : ℤ} {x : ℚ} (h : (k : ℚ) ≤ x) : k ≤ rne x := by
  rw [rne]
  have hk : k ≤ qfloor x := by
    rw [qfloor_eq_floor]
    exact Int.le_floor.mpr h
  split
  · exact hk
  · split
    · omega
    · split
      · exact hk
      · omega

theorem nlog2Aux_spec : ∀ fuel n, n ≤ fuel → 1 ≤ n →
    2 ^ nlog2Aux fuel n ≤ n ∧ n < 2 ^ (nlog2Aux fuel n + 1) := by
  intro fuel
  induction fuel with
  | zero => intro n h1 h2; omega
  | succ fuel ih =>
    intro n h1 h2
    rw [nlog2Aux]
    split
    · next h =>
      have hrec := ih (n / 2) (by omega) (by omega)
      constructor
      · have he : 2 ^ (nlog2Aux fuel (n / 2) + 1)
            = 2 ^ nlog2Aux fuel (n / 2) * 2 := by ring
        omega
      · have he : 2 ^ (nlog2Aux fuel (n / 2) + 1 + 1)
            = 2 ^ (nlog2Aux fuel (n / 2) + 1) * 2 := by ring
        omega
    · next h =>
      have hn : n = 1 := by omega
      subst hn
      norm_num

theorem nlog2_spec (n : ℕ) (h : 1 ≤ n) :
    2 ^ nlog2 n ≤ n ∧ n < 2 ^ (nlog2 n + 1) :=
  nlog2Aux_spec n n le_rfl h

theorem clampExp_of_nonneg {e : ℤ} (h : 0 ≤ e) : clampExp e = e := by
  rw [clampExp, if_neg (by omega)]

theorem pow2_zero : pow2 0 = 1 := rfl

theorem pow2_one : pow2 1 = 2 := rfl

theorem ratExp_spec (q : ℚ) (h : 1 ≤ q) :
    0 ≤ ratExp q ∧ pow2 (ratExp q) ≤ q ∧ q < pow2 (ratExp q + 1) := by
  have hden : (0 : ℚ) < (q.den : ℚ) := by
    exact_mod_cast q.pos
  have hnum_den : (q.den : ℤ) ≤ q.num := by
    have h0 : (1 : ℚ) ≤ (q.num : ℚ) / (q.den : ℚ) := by
      rw [Rat.num_div_den]; exact h
    rw [one_le_div hden] at h0
    exact_mod_cast h0
  have hb_le_a : q.den ≤ q.num.natAbs := by omega
  have hden1 : 1 ≤ q.den := q.pos
  have hm1 : 1 ≤ q.num.natAbs / q.den := (Nat.one_le_div_iff q.pos).mpr hb_le_a
  have hE : ratExp q = (nlog2 (q.num.natAbs / q.den) : ℤ) := by
    simp only [ratExp]
    rw [if_pos hb_le_a]
  set m := q.num.natAbs / q.den with hm
  obtain ⟨hl, hr⟩ := nlog2_spec m hm1
  have hfloor : qfloor q = (m : ℤ) := by
    rw [qfloor]
    have hnum : q.num = (q.num.natAbs : ℤ) := by omega
    rw [hnum, hm]
    exact (Int.ofNat_ediv q.num.natAbs q.den).symm
  have hfl := qfloor_le q
  have hfu := lt_qfloor_add_one q
  rw [hfloor] at hfl hfu
  refine ⟨by omega, ?_, ?_⟩
  · rw [hE, pow2_eq_zpow, zpow_natCast]
    calc ((2 : ℚ)) ^ nlog2 m ≤ (m : ℚ) := by exact_mod_cast hl
    _ ≤ q := by exact_mod_cast hfl
  · rw [hE]
    have : ((nlog2 m : ℤ) + 1) = ((nlog2 m + 1 : ℕ) : ℤ) := by push_cast; ring
    rw [this, pow2_eq_zpow, zpow_natCast]
    have hm2 : (m : ℚ) + 1 ≤ ((2 : ℚ)) ^ (nlog2 m + 1) := by exact_mod_cast hr
    calc q < (m : ℚ) + 1 := by exact_mod_cast hfu
    _ ≤ ((2 : ℚ)) ^ (nlog2 m + 1) := hm2

theorem pow2_cancel (a : ℤ) : pow2 a * pow2 (-a) = 1 := by
  rw [← pow2_add, add_neg_cancel, pow2_zero]

theorem intCast_pow2 (k : ℕ) : ((2 ^ k : ℤ) : ℚ) = pow2 (k : ℤ) := by
  rw [pow2_eq_zpow, zpow_natCast]
  push_cast
  ring

theorem roundPos_lower (q : ℚ) (h : 1 ≤ q) :
    roundPos q = F64.inf false ∨
    ∃ w, roundPos q = F64.finite w ∧
      q - pow2 (ratExp q - 53) ≤ w ∧ pow2 (ratExp q) ≤ w := by
  obtain ⟨he0, hlo, hhi⟩ := ratExp_spec q h
  simp only [roundPos, clampExp_of_nonneg he0, qmul_eq]
  set e := ratExp q with hEdef
  set m := rne (q * pow2 (52 - e)) with hmdef
  have hx_ge : ((2 ^ 52 : ℤ) : ℚ) ≤ q * pow2 (52 - e) := by
    have h1 : pow2 e * pow2 (52 - e) ≤ q * pow2 (52 - e) :=
      mul_le_mul_of_nonneg_right hlo (pow2_pos _).le
    rw [← pow2_add, show e + (52 - e) = (52 : ℤ) by ring] at h1
    rw [intCast_pow2]
    exact h1
  have hm_ge52 : (2 ^ 52 : ℤ) ≤ m := intCast_le_rne hx_ge
  have hm_ge : q * pow2 (52 - e) - 1 / 2 ≤ (m : ℚ) := rne_ge _
  have hcancel : pow2 (52 - e) * pow2 (e - 52) = 1 := by
    rw [← pow2_add, show 52 - e + (e - 52) = (0 : ℤ) by ring, pow2_zero]
  have hhalf : (1 / 2 : ℚ) * pow2 (e - 52) = pow2 (e - 53) := by
    rw [show e - 52 = 1 + (e - 53) by ring, pow2_add, pow2_one]
    ring
  have hr_lo : q - pow2 (e - 53) ≤ (m : ℚ) * pow2 (e - 52) := by
    have h1 : (q * pow2 (52 - e) - 1 / 2) * pow2 (e - 52) ≤ (m : ℚ) * pow2 (e - 52) :=
      mul_le_mul_of_nonneg_right hm_ge (pow2_pos _).le
    have h2 : q - pow2 (e - 53) = (q * pow2 (52 - e) - 1 / 2) * pow2 (e - 52) := by
      have h3 : q * (pow2 (52 - e) * pow2 (e - 52)) = q := by rw [hcancel]; ring
      calc q - pow2 (e - 53) = q * (pow2 (52 - e) * pow2 (e - 52)) - 1 / 2 * pow2 (e - 52) := by
            rw [h3, hhalf]
        _ = (q * pow2 (52 - e) - 1 / 2) * pow2 (e - 52) := by ring
    rw [h2]
    exact h1
  have hr_pow : pow2 e ≤ (m : ℚ) * pow2 (e - 52) := by
    have h1 : ((2 ^ 52 : ℤ) : ℚ) * pow2 (e - 52) ≤ (m : ℚ) * pow2 (e - 52) :=
      mul_le_mul_of_nonneg_right (by exact_mod_cast hm_ge52) (pow2_pos _).le
    have h2 : pow2 e = ((2 ^ 52 : ℤ) : ℚ) * pow2 (e - 52) := by
      rw [intCast_pow2, ← pow2_add]
      congr 1
      push_cast
      ring
    rw [h2]
    exact h1
  split
  · next h2 => exact Or.inr ⟨(m : ℚ) * pow2 (e - 52), rfl, hr_lo, hr_pow⟩
  · exact Or.inl rfl

theorem pow2_neg_one : pow2 (-1) = 1 / 2 := by
  show Rat.divInt 1 2 = 1 / 2
  rw [Rat.divInt_eq_div]
  norm_num

theorem IsRepr_gt_one_bound {f : ℚ} (hr : IsRepr f) (h1 : 1 < f) :
    1 + pow2 (-52) ≤ f := by
  obtain ⟨m, e, hf, hm⟩ := hr
  have hmq : (m : ℚ) ≤ ((2 ^ 53 - 1 : ℤ) : ℚ) := by
    exact_mod_cast show m ≤ 2 ^ 53 - 1 by omega
  by_cases he : e ≤ -53
  · exfalso
    have hmono := pow2_mono he
    have hppos := pow2_pos e
    have hmpos : (0 : ℚ) < (m : ℚ) := by nlinarith [hf, h1, hppos]
    have hle : f ≤ ((2 ^ 53 - 1 : ℤ) : ℚ) * pow2 (-53) := by
      rw [hf]
      exact mul_le_mul hmq hmono hppos.le (by positivity)
    have h53 : ((2 ^ 53 : ℤ) : ℚ) * pow2 (-53) = 1 := by
      rw [intCast_pow2]
      exact pow2_cancel 53
    have hppos' := pow2_pos (-53)
    push_cast at hle h53
    nlinarith [hle, h1, h53, hppos']
  · push_neg at he
    have he' : (0 : ℤ) ≤ e + 52 := by omega
    have hp : pow2 (e + 52) = ((2 ^ (e + 52).toNat : ℤ) : ℚ) := by
      rw [intCast_pow2, Int.toNat_of_nonneg he']
    have hfM : f * pow2 52 = ((m * 2 ^ (e + 52).toNat : ℤ) : ℚ) := by
      rw [hf]
      push_cast
      have h2 : ((2 : ℚ)) ^ (e + 52).toNat = pow2 (e + 52) := by
        rw [hp]; push_cast; ring
      rw [h2, mul_assoc, ← pow2_add]
    have hM_gt : (2 ^ 52 : ℤ) < m * 2 ^ (e + 52).toNat := by
      have hlt : ((2 ^ 52 : ℤ) : ℚ) < f * pow2 52 := by
        have hc52 : ((2 ^ 52 : ℤ) : ℚ) = pow2 52 := by exact_mod_cast intCast_pow2 52
        rw [hc52]
        have := mul_lt_mul_of_pos_right h1 (pow2_pos 52)
        linarith
      rw [hfM] at hlt
      exact_mod_cast hlt
    have hM_ge : (2 ^ 52 + 1 : ℤ) ≤ m * 2 ^ (e + 52).toNat := by omega
    have hf' : f = ((m * 2 ^ (e + 52).toNat : ℤ) : ℚ) * pow2 (-52) := by
      have hc := pow2_cancel 52
      calc f = f * (pow2 52 * pow2 (-52)) := by rw [hc]; ring
      _ = (f * pow2 52) * pow2 (-52) := by ring
      _ = ((m * 2 ^ (e + 52).toNat : ℤ) : ℚ) * pow2 (-52) := by rw [hfM]
    rw [hf']
    have hmul : ((2 ^ 52 + 1 : ℤ) : ℚ) * pow2 (-52)
        ≤ ((m * 2 ^ (e + 52).toNat : ℤ) : ℚ) * pow2 (-52) :=
      mul_le_mul_of_nonneg_right (by exact_mod_cast hM_ge) (pow2_pos _).le
    have heq : ((2 ^ 52 + 1 : ℤ) : ℚ) * pow2 (-52) = 1 + pow2 (-52) := by
      have h52 : ((2 ^ 52 : ℤ) : ℚ) * pow2 (-52) = 1 := by
        have hc52 : ((2 ^ 52 : ℤ) : ℚ) = pow2 52 := by exact_mod_cast intCast_pow2 52
        rw [hc52]
        exact pow2_cancel 52
      push_cast at h52 ⊢
      linarith [h52]
    linarith [hmul, heq.symm.le, heq.le]

theorem roundQ_of_pos (q : ℚ) (h : 0 < q) : roundQ q = roundPos q := by
  rw [roundQ, if_neg (by linarith), if_neg (by linarith)]

theorem roundQ_mul_ge {c f : ℚ} (hc : 1 ≤ c) (hf1 : 1 < f) (hf : IsRepr f) :
    roundQ (qmul c f) = F64.inf false ∨
    ∃ w, roundQ (qmul c f) = F64.finite w ∧ c ≤ w ∧ 1 ≤ w := by
  have hv1 : (1 : ℚ) ≤ c * f := by nlinarith
  have hv0 : (0 : ℚ) < c * f := by nlinarith
  rw [qmul_eq, roundQ_of_pos _ hv0]
  rcases roundPos_lower (c * f) hv1 with hcase | ⟨w, hw, hw1, hw2⟩
  · exact Or.inl hcase
  · right
    obtain ⟨he0, hlo, hhi⟩ := ratExp_spec (c * f) hv1
    have hw_one : (1 : ℚ) ≤ w := by
      have := pow2_mono he0
      rw [pow2_zero] at this
      linarith [hw2]
    refine ⟨w, hw, ?_, hw_one⟩
    have hfb := IsRepr_gt_one_bound hf hf1
    have hsplit : pow2 (ratExp (c * f) - 53) = pow2 (ratExp (c * f)) * pow2 (-53) := by
      rw [← pow2_add, Int.sub_eq_add_neg]
    by_cases hf2 : f ≤ 2
    · have h1 : pow2 (ratExp (c * f)) ≤ 2 * c := by nlinarith [hlo]
      have h4 : pow2 (-52) = 2 * pow2 (-53) := by
        rw [show (-52 : ℤ) = 1 + -53 by ring, pow2_add, pow2_one]
      have h2 : pow2 (ratExp (c * f) - 53) ≤ c * pow2 (-52) := by
        rw [hsplit, h4]
        nlinarith [pow2_pos (-53), h1]
      have h5 : c + c * pow2 (-52) ≤ c * f := by nlinarith [hfb, hc]
      linarith [hw1, h2, h5]
    · push_neg at hf2
      have h1 : 2 * c < c * f := by nlinarith
      have h2 : pow2 (ratExp (c * f) - 53) ≤ (c * f) * pow2 (-53) := by
        rw [hsplit]
        exact mul_le_mul_of_nonneg_right hlo (pow2_pos _).le
      have hp : pow2 (-53) ≤ 1 / 2 := by
        calc pow2 (-53) ≤ pow2 (-1) := pow2_mono (by omega)
        _ = 1 / 2 := pow2_neg_one
      nlinarith [hw1, pow2_pos (-53), hc, h1, h2, hp]

theorem pow2_natCast_eq (k : ℕ) : ((2 ^ k : ℕ) : ℚ) = pow2 (k : ℤ) := by
  rw [pow2_natCast]
  push_cast
  ring

theorem pow2_nonneg_eq (e : ℤ) (h : 0 ≤ e) : pow2 e = ((2 ^ e.toNat : ℕ) : ℚ) := by
  rw [pow2, if_pos h]

theorem roundPos_exact (q : ℚ) (m : ℕ) (e : ℤ) (hq : q = (m : ℚ) * pow2 e)
    (hm1 : 2 ^ 52 ≤ m) (hm2 : m < 2 ^ 53) (he : -52 ≤ e) (hbound : q < pow2 1024) :
    roundPos q = F64.finite q := by
  have h52 : ((52 : ℤ)).toNat = 52 := rfl
  have h53 : ((53 : ℤ)).toNat = 53 := rfl
  have hmlo : pow2 52 ≤ (m : ℚ) := by
    rw [pow2_nonneg_eq 52 (by norm_num), h52]
    exact_mod_cast hm1
  have hmhi : (m : ℚ) < pow2 53 := by
    rw [pow2_nonneg_eq 53 (by norm_num), h53]
    exact_mod_cast hm2
  have hqlo : pow2 (52 + e) ≤ q := by
    rw [hq, pow2_add]
    exact mul_le_mul_of_nonneg_right hmlo (pow2_pos e).le
  have hqhi : q < pow2 (53 + e) := by
    rw [hq, pow2_add]
    exact mul_lt_mul_of_pos_right hmhi (pow2_pos e)
  have hq1 : 1 ≤ q := by
    have h0 : pow2 0 ≤ pow2 (52 + e) := pow2_mono (by omega)
    rw [pow2_zero] at h0
    linarith
  obtain ⟨hE0, hElo, hEhi⟩ := ratExp_spec q hq1
  have hEeq : ratExp q = 52 + e := by
    by_contra hne
    rcases lt_or_gt_of_ne hne with hlt | hgt
    · have hmono := pow2_mono (show ratExp q + 1 ≤ 52 + e by omega)
      linarith
    · have hmono := pow2_mono (show 53 + e ≤ ratExp q by omega)
      linarith
  have hclamp : clampExp (ratExp q) = 52 + e := by
    rw [clampExp_of_nonneg hE0, hEeq]
  simp only [roundPos, qmul_eq, hclamp]
  have hx : q * pow2 (52 - (52 + e)) = ((m : ℤ) : ℚ) := by
    rw [hq, show 52 - (52 + e) = -e by ring, mul_assoc, pow2_cancel]
    push_cast
    ring
  rw [hx, rne_intCast]
  have hr : ((m : ℤ) : ℚ) * pow2 (52 + e - 52) = q := by
    rw [show 52 + e - 52 = e by ring, hq]
    push_cast
    ring
  rw [hr, if_pos hbound]

theorem roundQ_int_small (n : ℕ) (h1 : 1 ≤ n) (h2 : n ≤ 2 ^ 53) :
    roundQ ((n : ℚ)) = F64.finite ((n : ℚ)) := by
  have hn0 : (0 : ℚ) < (n : ℚ) := by exact_mod_cast h1
  rw [roundQ_of_pos _ hn0]
  have hnb : (n : ℚ) < pow2 1024 := by
    calc (n : ℚ) ≤ ((2 ^ 53 : ℕ) : ℚ) := by exact_mod_cast h2
    _ = pow2 53 := pow2_natCast_eq 53
    _ < pow2 1024 := pow2_lt_pow2 (by omega)
  by_cases hbig : n = 2 ^ 53
  · subst hbig
    apply roundPos_exact _ (2 ^ 52) 1 _ le_rfl (by norm_num) (by omega) hnb
    rw [pow2_one]
    push_cast
    ring
  · obtain ⟨hl, hr⟩ := nlog2_spec n h1
    have hE52 : nlog2 n ≤ 52 := by
      by_contra hcon
      push_neg at hcon
      have : 2 ^ 53 ≤ 2 ^ nlog2 n := Nat.pow_le_pow_right (by norm_num) hcon
      omega
    have hsum : 2 ^ nlog2 n * 2 ^ (52 - nlog2 n) = 2 ^ 52 := by
      rw [← Nat.pow_add]
      congr 1
      omega
    have hsum2 : 2 ^ (nlog2 n + 1) * 2 ^ (52 - nlog2 n) = 2 ^ 53 := by
      rw [← Nat.pow_add]
      congr 1
      omega
    apply roundPos_exact _ (n * 2 ^ (52 - nlog2 n)) ((nlog2 n : ℤ) - 52)
    · push_cast
      have hcast : ((2 : ℚ)) ^ (52 - nlog2 n) = pow2 ((52 - nlog2 n : ℕ) : ℤ) := by
        rw [pow2_natCast]
      rw [mul_assoc, hcast, ← pow2_add]
      have harg : ((52 - nlog2 n : ℕ) : ℤ) + ((nlog2 n : ℤ) - 52) = 0 := by
        push_cast [Nat.cast_sub hE52]
        ring
      rw [harg, pow2_zero, mul_one]
    · calc 2 ^ 52 = 2 ^ nlog2 n * 2 ^ (52 - nlog2 n) := hsum.symm
      _ ≤ n * 2 ^ (52 - nlog2 n) := Nat.mul_le_mul_right _ hl
    · calc n * 2 ^ (52 - nlog2 n) < 2 ^ (nlog2 n + 1) * 2 ^ (52 - nlog2 n) :=
          (Nat.mul_lt_mul_right (Nat.two_pow_pos _)).mpr hr
      _ = 2 ^ 53 := hsum2
    · omega
    · exact hnb

theorem f64toU64_le_max (x : F64) : f64toU64 x ≤ 2 ^ 64 - 1 := by
  rcases x with q | b | _
  · simp only [f64toU64]
    split
    · omega
    · exact Nat.min_le_right _ _
  · simp only [f64toU64]
    split <;> omega
  · simp only [f64toU64]
    omega

theorem f64toU64_finite_mono {a b : ℚ} (h : a ≤ b) :
    f64toU64 (F64.finite a) ≤ f64toU64 (F64.finite b) := by
  simp only [f64toU64]
  split
  · exact Nat.zero_le _
  · next ha =>
    rw [if_neg (by push_neg at ha ⊢; linarith)]
    have hf : qfloor a ≤ qfloor b := by
      rw [qfloor_eq_floor, qfloor_eq_floor]
      exact Int.floor_le_floor h
    exact min_le_min (Int.toNat_le_toNat hf) le_rfl

theorem f64toU64_finite_big {q : ℚ} (h : ((2 ^ 64 : ℕ) : ℚ) ≤ q) :
    f64toU64 (F64.finite q) = 2 ^ 64 - 1 := by
  simp only [f64toU64]
  rw [if_neg (by push_neg; positivity)]
  have h1 : ((2 ^ 64 : ℕ) : ℤ) ≤ qfloor q := by
    rw [qfloor_eq_floor]
    exact Int.le_floor.mpr (by exact_mod_cast h)
  have h2 : 2 ^ 64 ≤ (qfloor q).toNat := by omega
  omega

theorem f64toU64_natCast (n : ℕ) (h : n < 2 ^ 64) :
    f64toU64 (F64.finite (n : ℚ)) = n := by
  simp only [f64toU64]
  rw [if_neg (by push_neg; positivity)]
  have hq : qfloor ((n : ℚ)) = (n : ℤ) := by
    rw [qfloor_eq_floor]
    exact_mod_cast Int.floor_natCast n
  rw [hq]
  omega

theorem f64toU64_inf_pos : f64toU64 (F64.inf false) = 2 ^ 64 - 1 := rfl

theorem fmul_step {c fac : F64} (hc : CurOk c) (hf : FactorOk fac) :
    CurOk (fmul c fac) ∧ f64toU64 c ≤ f64toU64 (fmul c fac) := by
  obtain ⟨fq, rfl, hf1, hfr⟩ := hf
  rcases hc with rfl | ⟨q, rfl, hq⟩
  · have hfq0 : ¬ fq = 0 := by intro h; rw [h] at hf1; norm_num at hf1
    have hstep : fmul (F64.inf false) (F64.finite fq) = F64.inf false := by
      simp only [fmul]
      rw [if_neg hfq0]
      have hd : decide (fq < 0) = false := decide_eq_false (by linarith)
      rw [hd]
      rfl
    rw [hstep]
    exact ⟨Or.inl rfl, le_rfl⟩
  · have hfm : fmul (F64.finite q) (F64.finite fq) = roundQ (qmul q fq) := rfl
    rw [hfm]
    rcases roundQ_mul_ge hq hf1 hfr with hinf | ⟨w, hw, hcw, h1w⟩
    · rw [hinf, f64toU64_inf_pos]
      exact ⟨Or.inl rfl, f64toU64_le_max _⟩
    · rw [hw]
      exact ⟨Or.inr ⟨w, rfl, h1w⟩, f64toU64_finite_mono hcw⟩

theorem geoLoop_spec : ∀ (fuel start : ℕ) (s s' : GeometricSequence),
    FactorOk s.factor → CurOk s.current →
    geoLoop fuel start s = some s' →
    s'.factor = s.factor ∧ CurOk s'.current ∧
    f64toU64 s.current ≤ f64toU64 s'.current ∧ f64toU64 s'.current ≠ start := by
  intro fuel
  induction fuel with
  | zero =>
    intro start s s' hf hc h
    rw [geoLoop] at h
    split at h
    · simp at h
    · next hne =>
      injection h with h
      subst h
      exact ⟨rfl, hc, le_rfl, hne⟩
  | succ fuel ih =>
    intro start s s' hf hc h
    rw [geoLoop] at h
    split at h
    · next heq =>
      obtain ⟨hcur', hcast⟩ := fmul_step hc hf
      obtain ⟨hfac, hcur2, hle, hne⟩ :=
        ih start (GeometricSequence.mk (fmul s.current s.factor) s.factor) s' hf hcur' h
      exact ⟨hfac, hcur2, le_trans hcast hle, hne⟩
    · next hne =>
      injection h with h
      subst h
      exact ⟨rfl, hc, le_rfl, hne⟩

theorem next_spec {fuel : ℕ} {s s' : GeometricSequence} {v : ℕ}
    (hf : FactorOk s.factor) (hc : CurOk s.current)
    (h : GeometricSequence.next fuel s = some (v, s')) :
    v = f64toU64 s.current ∧ s'.factor = s.factor ∧ CurOk s'.current ∧
    v < f64toU64 s'.current := by
  rw [GeometricSequence.next] at h
  cases hg : geoLoop fuel (f64toU64 s.current) s with
  | none => rw [hg] at h; simp at h
  | some s2 =>
    rw [hg] at h
    simp only [Option.map_some'] at h
    injection h with h
    obtain ⟨h1, h2⟩ := Prod.mk.injEq .. |>.mp h
    subst h1
    subst h2
    obtain ⟨hfac, hcur, hle, hne⟩ := geoLoop_spec fuel _ s s2 hf hc hg
    exact ⟨rfl, hfac, hcur, lt_of_le_of_ne hle (Ne.symm hne)⟩

theorem geoTrace_head {fuel n : ℕ} {s : GeometricSequence} {v : ℕ}
    (h : (geoTrace fuel n s).head? = some v) : v = f64toU64 s.current := by
  cases n with
  | zero => simp [geoTrace] at h
  | succ n =>
    rw [geoTrace] at h
    cases hg : GeometricSequence.next fuel s with
    | none => rw [hg] at h; simp at h
    | some p =>
      rw [hg] at h
      obtain ⟨v', s2⟩ := p
      simp only [List.head?_cons] at h
      injection h with h
      subst h
      rw [GeometricSequence.next] at hg
      cases hgl : geoLoop fuel (f64toU64 s.current) s with
      | none => rw [hgl] at hg; simp at hg
      | some s3 =>
        rw [hgl] at hg
        simp only [Option.map_some'] at hg
        injection hg with hg
        exact ((Prod.mk.injEq .. |>.mp hg).1).symm

theorem geoTrace_chain (fuel : ℕ) : ∀ (n : ℕ) (s : GeometricSequence),
    FactorOk s.factor → CurOk s.current →
    (geoTrace fuel n s).Chain' (· < ·) := by
  intro n
  induction n with
  | zero => intro s hf hc; simp [geoTrace]
  | succ n ih =>
    intro s hf hc
    rw [geoTrace]
    cases hg : GeometricSequence.next fuel s with
    | none => simp
    | some p =>
      obtain ⟨v, s2⟩ := p
      obtain ⟨hv, hfac, hcur, hlt⟩ := next_spec hf hc hg
      rw [List.chain'_cons']
      constructor
      · intro b hb
        rw [Option.mem_def] at hb
        rw [geoTrace_head hb]
        exact hlt
      · exact ih s2 (by rw [hfac]; exact hf) hcur

theorem measureLoop_chain (time : ℕ) (f : ℕ → ℕ → Option ℕ) (clock : ℕ → ℕ) (gfuel : ℕ) :
    ∀ (rounds k : ℕ) (s : GeometricSequence) (l : List Measurement),
    FactorOk s.factor → CurOk s.current →
    measureLoop time f clock rounds gfuel k s = some l →
    l.Chain' (fun a b => a.iterations < b.iterations) ∧
    (∀ m, l.head? = some m → m.iterations = f64toU64 s.current) := by
  intro rounds
  induction rounds with
  | zero =>
    intro k s l hf hc h
    rw [measureLoop] at h
    simp at h
  | succ rounds ih =>
    intro k s l hf hc h
    rw [measureLoop] at h
    split at h
    · cases hg : GeometricSequence.next gfuel s with
      | none => rw [hg] at h; simp at h
      | some p =>
        rw [hg] at h
        obtain ⟨v, s2⟩ := p
        dsimp only at h
        obtain ⟨hv, hfac, hcur, hlt⟩ := next_spec hf hc hg
        cases hf2 : f k v with
        | some elapsed =>
          rw [hf2] at h
          dsimp only at h
          cases hrec : measureLoop time f clock rounds gfuel (k + 1) s2 with
          | none => rw [hrec] at h; simp at h
          | some rest =>
            rw [hrec] at h
            simp only [Option.map_some'] at h
            injection h with h
            subst h
            obtain ⟨hch, hhd⟩ := ih (k + 1) s2 rest (by rw [hfac]; exact hf) hcur hrec
            constructor
            · rw [List.chain'_cons']
              refine ⟨?_, hch⟩
              intro b hb
              rw [Option.mem_def] at hb
              have hb2 := hhd b hb
              show v < b.iterations
              rw [hb2]
              exact hlt
            · intro m hm
              simp only [List.head?_cons] at hm
              injection hm with hm
              subst hm
              exact hv
        | none =>
          rw [hf2] at h
          dsimp only at h
          injection h with h
          subst h
          exact ⟨List.chain'_nil, by intro m hm; simp at hm⟩
    · injection h with h
      subst h
      exact ⟨List.chain'_nil, by intro m hm; simp at hm⟩

theorem measureLoop_guard (time : ℕ) (f : ℕ → ℕ → Option ℕ) (clock : ℕ → ℕ) (gfuel : ℕ) :
    ∀ (rounds k : ℕ) (s : GeometricSequence) (l : List Measurement),
    measureLoop time f clock rounds gfuel k s = some l →
    ∀ i, i < l.length → clock (k + i) < time := by
  intro rounds
  induction rounds with
  | zero =>
    intro k s l h
    rw [measureLoop] at h
    simp at h
  | succ rounds ih =>
    intro k s l h
    rw [measureLoop] at h
    split at h
    · next hg =>
      cases hn : GeometricSequence.next gfuel s with
      | none => rw [hn] at h; simp at h
      | some p =>
        rw [hn] at h
        obtain ⟨v, s2⟩ := p
        dsimp only at h
        cases hf2 : f k v with
        | some elapsed =>
          rw [hf2] at h
          dsimp only at h
          cases hrec : measureLoop time f clock rounds gfuel (k + 1) s2 with
          | none => rw [hrec] at h; simp at h
          | some rest =>
            rw [hrec] at h
            simp only [Option.map_some'] at h
            injection h with h
            subst h
            intro i hi
            cases i with
            | zero => simpa using hg
            | succ i =>
              have := ih (k + 1) s2 rest hrec i (by simpa using hi)
              have harg : k + 1 + i = k + (i + 1) := by omega
              rw [harg] at this
              exact this
        | none =>
          rw [hf2] at h
          dsimp only at h
          injection h with h
          subst h
          intro i hi
          simp at hi
    · injection h with h
      subst h
      intro i hi
      simp at hi

theorem measureLoop_rounds (time : ℕ) (f : ℕ → ℕ → Option ℕ) (clock : ℕ → ℕ) (gfuel : ℕ) :
    ∀ (rounds k : ℕ) (s : GeometricSequence) (l : List Measurement),
    measureLoop time f clock rounds gfuel k s = some l →
    ∀ i, ∀ hi : i < l.length,
      f (k + i) ((l.get ⟨i, hi⟩).iterations) = some ((l.get ⟨i, hi⟩).elapsed) := by
  intro rounds
  induction rounds with
  | zero =>
    intro k s l h
    rw [measureLoop] at h
    simp at h
  | succ rounds ih =>
    intro k s l h
    rw [measureLoop] at h
    split at h
    · cases hn : GeometricSequence.next gfuel s with
      | none => rw [hn] at h; simp at h
      | some p =>
        rw [hn] at h
        obtain ⟨v, s2⟩ := p
        dsimp only at h
        cases hf2 : f k v with
        | some elapsed =>
          rw [hf2] at h
          dsimp only at h
          cases hrec : measureLoop time f clock rounds gfuel (k + 1) s2 with
          | none => rw [hrec] at h; simp at h
          | some rest =>
            rw [hrec] at h
            simp only [Option.map_some'] at h
            injection h with h
            subst h
            intro i hi
            cases i with
            | zero => simpa using hf2
            | succ i =>
              have hi' : i < rest.length := by simpa using hi
              have := ih (k + 1) s2 rest hrec i hi'
              have harg : k + 1 + i = k + (i + 1) := by omega
              rw [harg] at this
              simpa using this
        | none =>
          rw [hf2] at h
          dsimp only at h
          injection h with h
          subst h
          intro i hi
          simp at hi
    · injection h with h
      subst h
      intro i hi
      simp at hi

theorem measureLoop_stable (time : ℕ) (f : ℕ → ℕ → Option ℕ) (clock : ℕ → ℕ)
    (gfuel N : ℕ) (hmono : ∀ i j, i ≤ j → clock i ≤ clock j) (hN : time ≤ clock N) :
    ∀ (r₁ r₂ k : ℕ) (s : GeometricSequence), 1 ≤ r₁ → 1 ≤ r₂ →
    N + 1 ≤ k + r₁ → N + 1 ≤ k + r₂ →
    measureLoop time f clock r₁ gfuel k s = measureLoop time f clock r₂ gfuel k s := by
  intro r₁
  induction r₁ with
  | zero => intro r₂ k s h1; omega
  | succ r₁ ih =>
    intro r₂ k s h1 h2 hk1 hk2
    cases r₂ with
    | zero => omega
    | succ r₂ =>
      rw [measureLoop, measureLoop]
      by_cases hg : clock k < time
      · rw [if_pos hg, if_pos hg]
        have hkN : k < N := by
          by_contra hcon
          push_neg at hcon
          have := hmono N k hcon
          omega
        cases GeometricSequence.next gfuel s with
        | none => rfl
        | some p =>
          obtain ⟨v, s2⟩ := p
          dsimp only
          cases f k v with
          | some e =>
            dsimp only
            rw [ih r₂ (k + 1) s2 (by omega) (by omega) (by omega) (by omega)]
          | none => rfl
      · rw [if_neg hg, if_neg hg]

theorem natCast_pow2_64 : ((2 ^ 64 : ℕ) : ℚ) = pow2 64 := by decide

theorem bigCur_cast {x : F64} (h : BigCur x) : f64toU64 x = 2 ^ 64 - 1 := by
  rcases h with rfl | ⟨q, rfl, hq⟩
  · rfl
  · apply f64toU64_finite_big
    rw [natCast_pow2_64]
    exact hq

theorem isRepr_pow2_64 : IsRepr (pow2 64) := by
  refine ⟨2 ^ 52, 12, ?_, by norm_num⟩
  have h1 : ((2 ^ 52 : ℤ) : ℚ) = pow2 52 := by exact_mod_cast intCast_pow2 52
  rw [h1, ← pow2_add]
  norm_num

theorem one_lt_pow2_64 : (1 : ℚ) < pow2 64 := by
  have := pow2_lt_pow2 (show (0 : ℤ) < 64 by omega)
  rw [pow2_zero] at this
  exact this

theorem bigCur_mul {x : F64} (h : BigCur x) :
    BigCur (fmul x (F64.finite (pow2 64))) := by
  rcases h with rfl | ⟨q, rfl, hq⟩
  · have hstep : fmul (F64.inf false) (F64.finite (pow2 64)) = F64.inf false := by
      simp only [fmul]
      rw [if_neg (ne_of_gt (pow2_pos 64))]
      have hd : decide (pow2 64 < 0) = false := decide_eq_false (by
        have := pow2_pos (64 : ℤ)
        linarith)
      rw [hd]
      rfl
    rw [hstep]
    exact Or.inl rfl
  · have h1 : (1 : ℚ) ≤ q := le_trans one_lt_pow2_64.le hq
    have hfm : fmul (F64.finite q) (F64.finite (pow2 64))
        = roundQ (qmul q (pow2 64)) := rfl
    rw [hfm]
    rcases roundQ_mul_ge h1 one_lt_pow2_64 isRepr_pow2_64 with hinf | ⟨w, hw, hcw, _⟩
    · exact Or.inl hinf
    · exact Or.inr ⟨w, hw, le_trans hq hcw⟩

theorem geoLoop_none_big : ∀ (fuel : ℕ) (s : GeometricSequence),
    BigCur s.current → s.factor = F64.finite (pow2 64) →
    geoLoop fuel (2 ^ 64 - 1) s = none := by
  intro fuel
  induction fuel with
  | zero =>
    intro s hb hf
    rw [geoLoop, if_pos (bigCur_cast hb)]
  | succ fuel ih =>
    intro s hb hf
    rw [geoLoop, if_pos (bigCur_cast hb)]
    apply ih
    · show BigCur (fmul s.current s.factor)
      rw [hf]
      exact bigCur_mul hb
    · exact hf

theorem next_none_big {fuel : ℕ} {s : GeometricSequence}
    (hb : BigCur s.current) (hf : s.factor = F64.finite (pow2 64)) :
    GeometricSequence.next fuel s = none := by
  rw [GeometricSequence.next, bigCur_cast hb, geoLoop_none_big fuel s hb hf]
  rfl

theorem measureLoop_none_big (time : ℕ) (f : ℕ → ℕ → Option ℕ) (clock : ℕ → ℕ)
    (rounds gfuel k : ℕ) (s : GeometricSequence)
    (hb : BigCur s.current) (hfac : s.factor = F64.finite (pow2 64))
    (hg : clock k < time) :
    measureLoop time f clock rounds gfuel k s = none := by
  cases rounds with
  | zero => rfl
  | succ rounds =>
    rw [measureLoop, if_pos hg, next_none_big hb hfac]

theorem curOk_u64f {n : ℕ} (h : 1 ≤ n) : CurOk (u64f n) := by
  have h1 : (1 : ℚ) ≤ (n : ℚ) := by exact_mod_cast h
  rw [u64f, roundQ_of_pos _ (by linarith)]
  rcases roundPos_lower _ h1 with hinf | ⟨w, hw, _, hwp⟩
  · rw [hinf]
    exact Or.inl rfl
  · rw [hw]
    refine Or.inr ⟨w, rfl, ?_⟩
    have h0 := pow2_mono (ratExp_spec _ h1).1
    rw [pow2_zero] at h0
    linarith

theorem next_fst {fuel : ℕ} {s : GeometricSequence} {p : ℕ × GeometricSequence}
    (h : GeometricSequence.next fuel s = some p) : p.1 = f64toU64 s.current := by
  rw [GeometricSequence.next] at h
  cases hg : geoLoop fuel (f64toU64 s.current) s with
  | none => rw [hg] at h; simp at h
  | some s2 =>
    rw [hg] at h
    simp only [Option.map_some'] at h
    injection h with h
    rw [← h]

/-- C5: `kahan_sum` is exactly the fold of the specification's Kahan update
step from `(0.0, 0.0)` returning the running sum, and on the binary64 values
of the literals `[10000.0, 3.14159, 2.71828]` it returns exactly the binary64
value of `10005.85987`. -/
theorem kahan_sum_spec :
    (∀ l : List F64,
      kahan_sum l = (l.foldl specKahanStep (F64.finite 0, F64.finite 0)).1) ∧
    kahan_sum [flit 10000 1, flit 314159 100000, flit 271828 100000]
      = flit 1000585987 100000 :=
  ⟨fun _ => rfl, by decide⟩

/-- C7: on the fixed 15-point data set of the `test_model` unit test, the
fitted model is bit-for-bit the binary64 values asserted by the test:
`alpha = -39.06195591884393`, `beta = 61.27218654211062`,
`r2 = 0.989196922445796`. -/
theorem model_test_data :
    Model.new [(flit 147 100, flit 5221 100), (flit 150 100, flit 5312 100),
      (flit 152 100, flit 5448 100), (flit 155 100, flit 5584 100),
      (flit 157 100, flit 5720 100), (flit 160 100, flit 5857 100),
      (flit 163 100, flit 5993 100), (flit 165 100, flit 6129 100),
      (flit 168 100, flit 6311 100), (flit 170 100, flit 6447 100),
      (flit 173 100, flit 6628 100), (flit 175 100, flit 6810 100),
      (flit 178 100, flit 6992 100), (flit 180 100, flit 7219 100),
      (flit 183 100, flit 7446 100)]
    = Model.mk (flit (-3906195591884393) 100000000000000)
        (flit 6127218654211062 100000000000000)
        (flit 989196922445796 1000000000000000) := by decide

/-- C6: at iteration count `2 ^ 63` with a 2-byte element type and the default
512 MiB memory budget, the `u64` product in the budget test wraps to 0, so the
strategy fails to signal budget exhaustion and proceeds to request a `2 ^ 64`
byte allocation, although the true byte requirement `2 ^ 63 * 2` exceeds the
budget — the code contradicts its own documentation that the `memory` option
bounds what the function may allocate. -/
theorem memory_check_wraps :
    memoryExceeded (Bytes.mebibytes 512) 2 (2 ^ 63) = false ∧
    Bytes.mebibytes 512 < 2 ^ 63 * 2 ∧
    measure_drop_round (Bytes.mebibytes 512) 2 (2 ^ 63) 0 = (2 ^ 64, some 0) ∧
    measure_setup_round (Bytes.mebibytes 512) 2 (2 ^ 63) 0 = (2 ^ 64, some 0) := by
  exact ⟨by decide, by decide, by decide, by decide⟩

/-- C9: the default options are factor 1.01, memory 512 MiB = 536870912 bytes
and time 5 s = 5000000000 ns, and each builder-style setter returns a new
value that changes only its own field. -/
theorem options_builder_spec :
    Options.default = Options.mk (flit 101 100) 536870912 5000000000 ∧
    (∀ (o : Options) (fac : F64),
      (Options.setFactor o fac).factor = fac ∧
      (Options.setFactor o fac).memory = o.memory ∧
      (Options.setFactor o fac).time = o.time) ∧
    (∀ (o : Options) (m : ℕ),
      (Options.setMemory o m).memory = m ∧
      (Options.setMemory o m).factor = o.factor ∧
      (Options.setMemory o m).time = o.time) ∧
    (∀ (o : Options) (d : Duration),
      (Options.setTime o d).time = d.toNanos ∧
      (Options.setTime o d).factor = o.factor ∧
      (Options.setTime o d).memory = o.memory) :=
  ⟨rfl, fun _ _ => ⟨rfl, rfl, rfl⟩, fun _ _ => ⟨rfl, rfl, rfl⟩, fun _ _ => ⟨rfl, rfl, rfl⟩⟩

theorem factorOk_three_halves : FactorOk (F64.finite (Rat.divInt 3 2)) := by
  refine ⟨Rat.divInt 3 2, rfl, by decide, 3, -1, ?_, by norm_num⟩
  rw [pow2_neg_one, Rat.divInt_eq_div]
  norm_num

/-- C2: for any list of at least two measurements, `analyze` returns exactly
the specification's formulas: beta is the Kahan-summed covariance sum over the
Kahan-summed x variance sum, alpha is `ȳ - β·x̄` with Kahan-summed means, and
r2 is the explained-over-total-variance ratio with `ŷᵢ = β·xᵢ + α`. -/
theorem analyze_matches_spec (measurements : List Measurement)
    (_h : 2 ≤ measurements.length) :
    (analyze measurements).beta
      = specBeta (measurements.map fun m => u64f m.iterations)
          (measurements.map fun m => u64f m.elapsed) ∧
    (analyze measurements).alpha
      = specAlpha (measurements.map fun m => u64f m.iterations)
          (measurements.map fun m => u64f m.elapsed) ∧
    (analyze measurements).r2
      = specR2 (measurements.map fun m => u64f m.iterations)
          (measurements.map fun m => u64f m.elapsed) := by
  have hsum : specKahanSum = kahan_sum := rfl
  have hmean : specMean = kahan_mean := rfl
  refine ⟨?_, ?_, ?_⟩ <;>
    simp only [specBeta, specAlpha, specR2, hsum, hmean, analyze,
      List.zip_map', List.map_map, List.length_map, kahan_mean, Function.comp_def]

/-- C3: `bench_impl` prints "not enough measurements" exactly when fewer than
two measurements were collected or the estimated slope is an actual negative
value (IEEE `<` excludes NaN); a NaN slope — produced for instance by two
measurements with the same iteration count — is reported numerically. -/
theorem bench_insufficient_iff :
    (∀ measurements : List Measurement,
      bench_impl_insufficient measurements = true ↔ specInsufficient measurements) ∧
    (analyze [Measurement.mk 1 10, Measurement.mk 1 20]).beta = F64.nan ∧
    2 ≤ ([Measurement.mk 1 10, Measurement.mk 1 20] : List Measurement).length ∧
    bench_impl_insufficient [Measurement.mk 1 10, Measurement.mk 1 20] = false := by
  refine ⟨?_, by decide, by decide, by decide⟩
  intro ms
  cases hb : (analyze ms).beta with
  | finite q =>
    simp [bench_impl_insufficient, specInsufficient, flt, hb]
  | inf b =>
    cases b <;> simp [bench_impl_insufficient, specInsufficient, flt, hb]
  | nan =>
    simp [bench_impl_insufficient, specInsufficient, flt, hb]

/-- C1 (counterexample): with factor `1e18` (a legitimate f64 above 1.0) and a
2 ns time budget over a 1 ns-per-round clock, `measure_impl` accepts a
measurement with `10 ^ 18` iterations — far above the claimed `10 ^ 15`
ceiling, which does not exist in the code. -/
theorem measure_impl_exceeds_ceiling :
    measure_impl (Options.mk (flit (10 ^ 18) 1) (Bytes.mebibytes 512) 2)
      (fun _ _ => some 0) (fun k => k) 3 2
      = some [Measurement.mk 1 0, Measurement.mk (10 ^ 18) 0] ∧
    (10 ^ 15 : ℕ) < 10 ^ 18 ∧
    flt (F64.finite 1) (flit (10 ^ 18) 1) = true := by decide

/-- C1 (amended): the sampling loop has no iteration-count ceiling; a
measurement is accepted in round `i` exactly under the loop's only admission
control, namely that the stopwatch reading at the start of that round was
below `options.time` (or the strategy declined by returning none). -/
theorem measure_impl_guard (options : Options) (f : ℕ → ℕ → Option ℕ)
    (clock : ℕ → ℕ) (rounds gfuel : ℕ) (l : List Measurement)
    (h : measure_impl options f clock rounds gfuel = some l) :
    ∀ i, i < l.length → clock i < options.time := by
  rw [measure_impl] at h
  have hg := measureLoop_guard options.time f clock gfuel rounds 0 _ l h
  intro i hi
  have h2 := hg i hi
  simpa using h2

theorem measure_impl_guard_witness :
    measure_impl (Options.mk (F64.finite (Rat.divInt 3 2)) (Bytes.mebibytes 512) 2)
      (fun _ _ => some 0) (fun k => k) 3 5
      = some [Measurement.mk 1 0, Measurement.mk 2 0] ∧
    (∀ i, i < ([Measurement.mk 1 0, Measurement.mk 2 0] : List Measurement).length →
      (fun k : ℕ => k) i
        < (Options.mk (F64.finite (Rat.divInt 3 2)) (Bytes.mebibytes 512) 2).time) :=
  ⟨by decide,
    measure_impl_guard (Options.mk (F64.finite (Rat.divInt 3 2)) (Bytes.mebibytes 512) 2)
      (fun _ _ => some 0) (fun k => k) 3 5 [Measurement.mk 1 0, Measurement.mk 2 0]
      (by decide)⟩

theorem analyze_matches_spec_witness :
    2 ≤ ([Measurement.mk 1 1, Measurement.mk 2 3] : List Measurement).length ∧
    ((analyze [Measurement.mk 1 1, Measurement.mk 2 3]).beta
      = specBeta ([Measurement.mk 1 1, Measurement.mk 2 3].map fun m => u64f m.iterations)
          ([Measurement.mk 1 1, Measurement.mk 2 3].map fun m => u64f m.elapsed) ∧
    (analyze [Measurement.mk 1 1, Measurement.mk 2 3]).alpha
      = specAlpha ([Measurement.mk 1 1, Measurement.mk 2 3].map fun m => u64f m.iterations)
          ([Measurement.mk 1 1, Measurement.mk 2 3].map fun m => u64f m.elapsed) ∧
    (analyze [Measurement.mk 1 1, Measurement.mk 2 3]).r2
      = specR2 ([Measurement.mk 1 1, Measurement.mk 2 3].map fun m => u64f m.iterations)
          ([Measurement.mk 1 1, Measurement.mk 2 3].map fun m => u64f m.elapsed)) :=
  ⟨by decide, analyze_matches_spec [Measurement.mk 1 1, Measurement.mk 2 3] (by decide)⟩

/-- C4 (counterexample): the first value emitted for start `2 ^ 53 + 1`
(with the legitimate factor 1.5) is `2 ^ 53`, not the start value: the
`start as f64` conversion in `GeometricSequence::new` already rounds. -/
theorem geo_first_counterexample :
    (GeometricSequence.next 2 (GeometricSequence.new (2 ^ 53 + 1)
        (F64.finite (Rat.divInt 3 2)))).map Prod.fst = some (2 ^ 53) ∧
    (2 ^ 53 : ℕ) ≠ 2 ^ 53 + 1 ∧ (1 : ℕ) ≤ 2 ^ 53 + 1 ∧
    flt (F64.finite 1) (F64.finite (Rat.divInt 3 2)) = true := by decide

/-- C4 (amended): for every start at least 1 and finite representable factor
strictly above 1, the emitted values are strictly increasing (hence pairwise
distinct); the first emitted value equals `start` provided `start ≤ 2 ^ 53`
(so that the `start as f64` conversion is exact); and each emission returns
the saturating cast of `current`, then multiplies `current` by the factor
within the same call until the cast changes. -/
theorem geo_sequence_spec (start : ℕ) (factor : F64) (gfuel n : ℕ)
    (h1 : 1 ≤ start) (hf : FactorOk factor) :
    (geoTrace gfuel n (GeometricSequence.new start factor)).Chain' (· < ·) ∧
    (start ≤ 2 ^ 53 → ∀ p : ℕ × GeometricSequence,
      GeometricSequence.next gfuel (GeometricSequence.new start factor) = some p →
      p.1 = start) ∧
    (∀ (s : GeometricSequence) (v : ℕ) (s' : GeometricSequence),
      FactorOk s.factor → CurOk s.current →
      GeometricSequence.next gfuel s = some (v, s') →
      v = f64toU64 s.current ∧ f64toU64 s'.current ≠ v) := by
  refine ⟨geoTrace_chain gfuel n _ hf (curOk_u64f h1), ?_, ?_⟩
  · intro h53 p hp
    have hfst := next_fst hp
    rw [hfst]
    show f64toU64 (u64f start) = start
    rw [u64f, roundQ_int_small start h1 h53]
    exact f64toU64_natCast start (by omega)
  · intro s v s' hfs hcs hn
    obtain ⟨hv, _, _, hlt⟩ := next_spec hfs hcs hn
    exact ⟨hv, by omega⟩

theorem geo_sequence_spec_witness :
    ((1 : ℕ) ≤ 1 ∧ FactorOk (F64.finite (Rat.divInt 3 2))) ∧
    ((geoTrace 5 4 (GeometricSequence.new 1 (F64.finite (Rat.divInt 3 2)))).Chain' (· < ·) ∧
    ((1 : ℕ) ≤ 2 ^ 53 → ∀ p : ℕ × GeometricSequence,
      GeometricSequence.next 5 (GeometricSequence.new 1 (F64.finite (Rat.divInt 3 2))) = some p →
      p.1 = 1) ∧
    (∀ (s : GeometricSequence) (v : ℕ) (s' : GeometricSequence),
      FactorOk s.factor → CurOk s.current →
      GeometricSequence.next 5 s = some (v, s') →
      v = f64toU64 s.current ∧ f64toU64 s'.current ≠ v)) :=
  ⟨⟨le_rfl, factorOk_three_halves⟩,
    geo_sequence_spec 1 (F64.finite (Rat.divInt 3 2)) 5 4 le_rfl factorOk_three_halves⟩

/-- C10: whenever `measure_impl` returns, the iteration counts of the returned
measurements are strictly increasing in list order (hence pairwise distinct),
and the first accepted measurement, if any, has iteration count 1. -/
theorem measure_impl_iterations (options : Options) (f : ℕ → ℕ → Option ℕ)
    (clock : ℕ → ℕ) (rounds gfuel : ℕ) (l : List Measurement)
    (hf : FactorOk options.factor)
    (h : measure_impl options f clock rounds gfuel = some l) :
    l.Chain' (fun a b => a.iterations < b.iterations) ∧
    (∀ m, l.head? = some m → m.iterations = 1) := by
  rw [measure_impl] at h
  obtain ⟨hch, hhd⟩ := measureLoop_chain options.time f clock gfuel rounds 0
    (GeometricSequence.new 1 options.factor) l hf (curOk_u64f le_rfl) h
  refine ⟨hch, ?_⟩
  intro m hm
  rw [hhd m hm]
  show f64toU64 (u64f 1) = 1
  decide

theorem measure_impl_iterations_witness :
    (FactorOk (Options.mk (F64.finite (Rat.divInt 3 2)) (Bytes.mebibytes 512) 2).factor ∧
      measure_impl (Options.mk (F64.finite (Rat.divInt 3 2)) (Bytes.mebibytes 512) 2)
        (fun _ _ => some 0) (fun k => k) 3 5
        = some [Measurement.mk 1 0, Measurement.mk 2 0]) ∧
    (([Measurement.mk 1 0, Measurement.mk 2 0] : List Measurement).Chain'
        (fun a b => a.iterations < b.iterations) ∧
      (∀ m, ([Measurement.mk 1 0, Measurement.mk 2 0] : List Measurement).head? = some m →
        m.iterations = 1)) :=
  ⟨⟨factorOk_three_halves, by decide⟩,
    measure_impl_iterations (Options.mk (F64.finite (Rat.divInt 3 2)) (Bytes.mebibytes 512) 2)
      (fun _ _ => some 0) (fun k => k) 3 5 [Measurement.mk 1 0, Measurement.mk 2 0]
      factorOk_three_halves (by decide)⟩

/-- C8 (counterexample): with the legitimate factor `2 ^ 64` and an
instantaneous strategy, a 2 ns time budget and a 1 ns-per-round clock — so the
budget is reached by round 2 — `measure_impl` never returns: once the
generator's `current` saturates the `u64` range, the inner `while` loop of
`next` spins forever, whatever fuel it is given. -/
theorem measure_impl_nontermination :
    measure_impl_diverges (Options.mk (F64.finite (pow2 64)) (Bytes.mebibytes 512) 2)
      (fun _ _ => some 0) (fun k => k) ∧
    (Options.mk (F64.finite (pow2 64)) (Bytes.mebibytes 512) 2).time
      ≤ (fun k : ℕ => k) 2 := by
  refine ⟨?_, le_rfl⟩
  intro rounds gfuel
  rw [measure_impl]
  cases rounds with
  | zero => rfl
  | succ rounds =>
    rw [measureLoop]
    rw [if_pos (show (fun k : ℕ => k) 0
      < (Options.mk (F64.finite (pow2 64)) (Bytes.mebibytes 512) 2).time by norm_num)]
    cases gfuel with
    | zero =>
      have hz : GeometricSequence.next 0
          (GeometricSequence.new 1 (Options.mk (F64.finite (pow2 64))
            (Bytes.mebibytes 512) 2).factor) = none := by decide
      rw [hz]
    | succ gfuel =>
      have hnext : GeometricSequence.next (gfuel + 1)
          (GeometricSequence.new 1 (F64.finite (pow2 64)))
          = some (1, GeometricSequence.mk (F64.finite (pow2 64)) (F64.finite (pow2 64))) := by
        rw [GeometricSequence.next]
        have hstart : f64toU64 (GeometricSequence.new 1 (F64.finite (pow2 64))).current
            = 1 := by decide
        rw [hstart, geoLoop]
        rw [if_pos (show f64toU64 (GeometricSequence.new 1 (F64.finite (pow2 64))).current
          = 1 by decide)]
        have hs1 : GeometricSequence.mk
            (fmul (GeometricSequence.new 1 (F64.finite (pow2 64))).current
              (GeometricSequence.new 1 (F64.finite (pow2 64))).factor)
            (GeometricSequence.new 1 (F64.finite (pow2 64))).factor
            = GeometricSequence.mk (F64.finite (pow2 64)) (F64.finite (pow2 64)) := by decide
        rw [hs1]
        have hexit : geoLoop gfuel 1
            (GeometricSequence.mk (F64.finite (pow2 64)) (F64.finite (pow2 64)))
            = some (GeometricSequence.mk (F64.finite (pow2 64)) (F64.finite (pow2 64))) := by
          cases gfuel with
          | zero => rw [geoLoop, if_neg (by decide)]
          | succ g => rw [geoLoop, if_neg (by decide)]
        rw [hexit]
        rfl
      rw [hnext]
      dsimp only
      have hnone := measureLoop_none_big 2 (fun _ _ => some 0) (fun k => k) rounds
        (gfuel + 1) 1 (GeometricSequence.mk (F64.finite (pow2 64)) (F64.finite (pow2 64)))
        (Or.inr ⟨pow2 64, rfl, le_rfl⟩) rfl (by norm_num)
      rw [hnone]
      rfl

/-- C8 (amended): the outer loop runs at most `N + 1` rounds once the
monotone clock reaches the time budget at round `N`, and — provided every
generator call within those rounds completes, which can fail once `current`
saturates the `u64` range — the run returns one fixed measurement list for
every sufficient fuel, with exactly one measurement per round in which the
strategy returned an elapsed time (measurement `i` coming from round `i`). -/
theorem measure_impl_terminates (options : Options) (f : ℕ → ℕ → Option ℕ)
    (clock : ℕ → ℕ) (gfuel N : ℕ)
    (hmono : ∀ i j, i ≤ j → clock i ≤ clock j)
    (hN : options.time ≤ clock N)
    (hcomplete : measure_impl options f clock (N + 1) gfuel ≠ none) :
    ∃ l, (∀ rounds, N + 1 ≤ rounds →
        measure_impl options f clock rounds gfuel = some l) ∧
      ∀ i, ∀ hi : i < l.length,
        f i ((l.get ⟨i, hi⟩).iterations) = some ((l.get ⟨i, hi⟩).elapsed) := by
  cases hx : measureLoop options.time f clock (N + 1) gfuel 0
      (GeometricSequence.new 1 options.factor) with
  | none =>
    exfalso
    apply hcomplete
    rw [measure_impl]
    exact hx
  | some l =>
    refine ⟨l, ?_, ?_⟩
    · intro rounds hr
      rw [measure_impl,
        measureLoop_stable options.time f clock gfuel N hmono hN rounds (N + 1) 0 _
          (by omega) (by omega) (by omega) (by omega)]
      exact hx
    · have hrounds := measureLoop_rounds options.time f clock gfuel (N + 1) 0 _ l hx
      intro i hi
      have h2 := hrounds i hi
      simpa using h2

theorem measure_impl_terminates_witness :
    ((∀ i j : ℕ, i ≤ j → (fun k : ℕ => k) i ≤ (fun k : ℕ => k) j) ∧
      (Options.mk (F64.finite (Rat.divInt 3 2)) (Bytes.mebibytes 512) 1).time
        ≤ (fun k : ℕ => k) 1 ∧
      measure_impl (Options.mk (F64.finite (Rat.divInt 3 2)) (Bytes.mebibytes 512) 1)
        (fun _ _ => some 5) (fun k => k) (1 + 1) 5 ≠ none) ∧
    (∃ l, (∀ rounds, 1 + 1 ≤ rounds →
        measure_impl (Options.mk (F64.finite (Rat.divInt 3 2)) (Bytes.mebibytes 512) 1)
          (fun _ _ => some 5) (fun k => k) rounds 5 = some l) ∧
      ∀ i, ∀ hi : i < l.length,
        (fun _ _ => some 5 : ℕ → ℕ → Option ℕ) i ((l.get ⟨i, hi⟩).iterations)
          = some ((l.get ⟨i, hi⟩).elapsed)) :=
  ⟨⟨fun _ _ h => h, le_rfl, by decide⟩,
    measure_impl_terminates (Options.mk (F64.finite (Rat.divInt 3 2)) (Bytes.mebibytes 512) 1)
      (fun _ _ => some 5) (fun k => k) 5 1 (fun _ _ h => h) le_rfl (by decide)⟩
